import Mathlib

/-!
Verification of the Facets subset-coverage counter (src/Source.cpp).

The program reads base sets A_1, ..., A_n over the universe 0..63 (each
given as a line of elements in original listing order), and for each k
counts the distinct k-element sets X contained in at least one A_i.
We embed the load phase (Read_input, lines 81-100), the counting kernel
(Compute_numbers, lines 119-150) and the output policy (Write_output,
lines 104-113) as executable Lean functions, and prove the claims about
them.  Machine integers are modelled as Nat; the 65-cell histogram array
is a list, with out-of-range accesses and an out-of-range jump-sequence
read modelled as failure (Option.none); the unbounded while loop is run
on explicit fuel (2 ^ 64 steps, which we prove sufficient).
-/

namespace Facets

/-- Maximal allowed number of base sets (Source.cpp line 41). -/
def MAX_NUMBER : Nat := 1000

/-- The bitmask built from one input line by the loop of Read_input
(lines 87-95): starting from 0, each element x contributes bit x via
set = set ||| (1 <<< x).  For x ≥ 64 the C shift of a 64-bit word is
undefined behaviour; the model keeps the mathematical value. -/
def maskOf (line : List Nat) : Nat :=
  line.foldl (fun s x => s ||| (1 <<< x)) 0

/-- The jump sequence built from one input line by the same loop
(line 92): entry `index` is the running value of `set` after the first
index+1 elements, i.e. the list of running unions in original order. -/
def seqFrom (acc : Nat) : List Nat → List Nat
  | [] => []
  | x :: xs => (acc ||| (1 <<< x)) :: seqFrom (acc ||| (1 <<< x)) xs

/-- The data stored for one input line: sets[i] and sequences[i]
(lines 87-95, one pass building both). -/
def buildLine (line : List Nat) : Nat × List Nat :=
  (maskOf line, seqFrom 0 line)

/-- Read_input (lines 81-100) on already-parsed lines.  The Boolean is
the function's return value: it is false only when the file cannot be
opened, which does not arise once the parsed lines are given — the load
phase performs no validation of the number of lines against MAX_NUMBER
and no range check of the elements. -/
def Read_input (lines : List (List Nat)) : Bool × List (Nat × List Nat) :=
  (true, lines.map buildLine)

/-- The containment scan of Compute_numbers (lines 126-130 and 143-147):
subset is contained in some earlier set A_j iff (subset &&& A_j) = subset
for some j; the C loop breaks at the first hit, which List.any matches. -/
def contained (prev : List Nat) (subset : Nat) : Bool :=
  prev.any fun Aj => subset &&& Aj == subset

/-- The increment numbers_of_subsets[size]++ (lines 131 and 148).  In the
source `size` is an int indexing the 65-cell array; an index outside
0..64 would be out of bounds, modelled as failure. -/
def bump (hist : List Nat) (size : Int) : Option (List Nat) :=
  if 0 ≤ size ∧ size < 65 then
    some (hist.set size.toNat (hist.getD size.toNat 0 + 1))
  else none

/-- The inner while loop of Compute_numbers (lines 124-140), run on
explicit fuel.  Each iteration: if subset = A the loop exits returning
the current size and histogram; otherwise the containment check guards
the histogram increment, the search loop of line 136 finds the first
jump-sequence entry not contained in subset (running past the entries
written for this set — an out-of-range read — is modelled as failure),
and lines 138-139 step to the successor. -/
def innerLoop (prev : List Nat) (A : Nat) (seq : List Nat) :
    Nat → Nat → Int → List Nat → Option (Int × List Nat)
  | 0, _, _, _ => none
  | fuel + 1, subset, size, hist =>
    if subset = A then some (size, hist)
    else
      match (if contained prev subset then some hist else bump hist size) with
      | none => none
      | some h =>
        match seq.findIdx? fun s => (subset ||| s) != subset with
        | none => none
        | some t =>
            innerLoop prev A seq fuel (subset ^^^ seq.getD t 0)
              (size - ((t : Int) - 1)) h

/-- The body of the outer for loop of Compute_numbers for one base set
(lines 121-148): run the subset enumeration, then handle the remaining
case subset = A (lines 141-148) with the same check and increment. -/
def processSet (prev : List Nat) (A : Nat) (seq : List Nat)
    (hist : List Nat) : Option (List Nat) :=
  match innerLoop prev A seq (2 ^ 64) 0 0 hist with
  | none => none
  | some (size, h) => if contained prev A then some h else bump h size

/-- The outer for loop of Compute_numbers (line 120): process the sets in
input order, accumulating the list of already-processed sets. -/
def computeAux : List (Nat × List Nat) → List Nat → List Nat → Option (List Nat)
  | [], _, hist => some hist
  | p :: rest, prev, hist =>
    match processSet prev p.1 p.2 hist with
    | none => none
    | some h => computeAux rest (prev ++ [p.1]) h

/-- Compute_numbers (lines 119-150): starting from the zero-initialized
65-cell array (line 59), process every loaded base set. -/
def Compute_numbers (input : List (Nat × List Nat)) : Option (List Nat) :=
  computeAux input [] (List.replicate 65 0)

/-- Write_output (lines 104-113): emit histogram cells for k = 0, 1, ...
stopping at the first zero cell. -/
def Write_output (hist : List Nat) : List Nat :=
  hist.takeWhile fun c => c != 0

/-- The sequence of values taken by the subset variable of the inner while
loop (lines 124-140), from the given start until the loop guard
subset = A fails; the final state A itself is included as last entry.
The successor computation is the one of lines 135-138. -/
def visitList (seq : List Nat) (A : Nat) : Nat → Nat → Option (List Nat)
  | 0, _ => none
  | fuel + 1, subset =>
    if subset = A then some [subset]
    else
      match seq.findIdx? fun s => (subset ||| s) != subset with
      | none => none
      | some t =>
        (visitList seq A fuel (subset ^^^ seq.getD t 0)).map (subset :: ·)

/-! Mathematical side: the cardinality of the set a bitmask denotes, the
binary-counter decoding of loop states, and the Finset statement of what
is being counted. -/

/-- Cardinality of the set a bitmask denotes (number of set bits). -/
def popcount : Nat → Nat
  | 0 => 0
  | n + 1 => (n + 1) % 2 + popcount ((n + 1) / 2)
decreasing_by omega

/-- Decoding of enumeration-loop states: bit j of the counter v selects
the j-th element of the line (in original listing order), so the loop's
subset variable after v successor steps is encode line v. -/
def encode : List Nat → Nat → Nat
  | [], _ => 0
  | e :: es, v => (if v % 2 = 1 then 1 <<< e else 0) ||| encode es (v / 2)

/-- The subset of 0..63 denoted by a bitmask. -/
def toSet (s : Nat) : Finset Nat :=
  (Finset.range 64).filter fun i => s.testBit i

/-- Modelled from the spec: the k-element subsets of the 64-element
universe contained in at least one of the given base sets. -/
def covered (lines : List (List Nat)) (k : Nat) : Finset (Finset Nat) :=
  (Finset.range 64).powerset.filter fun X =>
    X.card = k ∧ ∃ l ∈ lines, X ⊆ l.toFinset

/-- Mask-level counterpart of `covered`, used while reasoning about the
algorithm: subsets are 64-bit masks below 2 ^ 64. -/
def coveredMask (masks : List Nat) (k : Nat) : Finset Nat :=
  (Finset.range (2 ^ 64)).filter fun S =>
    (∃ A ∈ masks, S &&& A = S) ∧ popcount S = k

/-- The masks newly counted while processing one base set A: subsets of A
of size k not contained in any earlier set. -/
def newOfSize (prev : List Nat) (A k : Nat) : Finset Nat :=
  (Finset.range (2 ^ 64)).filter fun S =>
    S &&& A = S ∧ contained prev S = false ∧ popcount S = k

/-- The masks counted while processing a tail of the base-set list, given
the sets already processed. -/
def newCovered (prev masks : List Nat) (k : Nat) : Finset Nat :=
  (Finset.range (2 ^ 64)).filter fun S =>
    (∃ A ∈ masks, S &&& A = S) ∧ contained prev S = false ∧ popcount S = k

/-! Basic bitmask lemmas. -/

theorem one_shiftLeft_eq (e : Nat) : 1 <<< e = 2 ^ e := by
  simp [Nat.shiftLeft_eq]

/-- Mask containment, written as the source writes it, read bitwise. -/
theorem and_eq_left_iff {s t : Nat} :
    s &&& t = s ↔ ∀ i, s.testBit i = true → t.testBit i = true := by
  constructor
  · intro h i hi
    have h' := congrArg (fun x => x.testBit i) h
    simp only [Nat.testBit_and, hi, Bool.true_and] at h'
    exact h'
  · intro h
    apply Nat.eq_of_testBit_eq
    intro i
    rw [Nat.testBit_and]
    cases hs : s.testBit i with
    | false => simp
    | true => simp [h i hs]

/-- The stopping test of the successor search, read bitwise. -/
theorem or_eq_left_iff {s t : Nat} :
    s ||| t = s ↔ ∀ i, t.testBit i = true → s.testBit i = true := by
  constructor
  · intro h i hi
    have h' := congrArg (fun x => x.testBit i) h
    simp only [Nat.testBit_or, hi, Bool.or_true] at h'
    exact h'.symm
  · intro h
    apply Nat.eq_of_testBit_eq
    intro i
    rw [Nat.testBit_or]
    cases hs : s.testBit i with
    | true => simp
    | false =>
      cases ht : t.testBit i with
      | false => simp
      | true => rw [h i ht] at hs; cases hs

theorem foldl_or_testBit (l : List Nat) (a : Nat) (i : Nat) :
    (l.foldl (fun s x => s ||| (1 <<< x)) a).testBit i
      = (a.testBit i || decide (i ∈ l)) := by
  induction l generalizing a with
  | nil => simp
  | cons x xs ih =>
    rw [List.foldl_cons, ih]
    simp only [Nat.testBit_or, one_shiftLeft_eq, Nat.testBit_two_pow, List.mem_cons]
    by_cases hx : x = i
    · subst hx; simp
    · have hix : ¬ i = x := fun h => hx h.symm
      simp [hx, hix, Bool.or_assoc]

theorem testBit_maskOf {l : List Nat} {i : Nat} :
    (maskOf l).testBit i = decide (i ∈ l) := by
  simp [maskOf, foldl_or_testBit]

theorem maskOf_lt {l : List Nat} (h : ∀ x ∈ l, x < 64) : maskOf l < 2 ^ 64 := by
  apply Nat.lt_pow_two_of_testBit
  intro i hi
  rw [testBit_maskOf]
  simp only [decide_eq_false_iff_not]
  intro hmem
  exact absurd (h i hmem) (by omega)

theorem maskOf_cons (e : Nat) (es : List Nat) :
    maskOf (e :: es) = 2 ^ e ||| maskOf es := by
  apply Nat.eq_of_testBit_eq
  intro i
  simp only [testBit_maskOf, Nat.testBit_or, Nat.testBit_two_pow, List.mem_cons]
  by_cases he : e = i
  · subst he; simp
  · have hie : ¬ i = e := fun h => he h.symm
    simp [he, hie]

/-! Lemmas about popcount. -/

theorem popcount_eq (n : Nat) : popcount n = n % 2 + popcount (n / 2) := by
  cases n with
  | zero => simp [popcount]
  | succ m => rw [popcount]

theorem popcount_eq_sum {k n : Nat} (h : n < 2 ^ k) :
    popcount n = ∑ i ∈ Finset.range k, (if n.testBit i then 1 else 0) := by
  induction k generalizing n with
  | zero =>
    have : n = 0 := by simpa using h
    simp [this, popcount]
  | succ k ih =>
    have h2 : 2 ^ (k + 1) = 2 ^ k * 2 := by rw [Nat.pow_succ]
    have hn2 : n / 2 < 2 ^ k := by omega
    rw [popcount_eq, ih hn2, Finset.sum_range_succ']
    have hb : ∀ i, n.testBit (i + 1) = (n / 2).testBit i := fun i => Nat.testBit_add_one n i
    simp only [hb, Nat.testBit_zero]
    have hmod : (if decide (n % 2 = 1) = true then (1 : Nat) else 0) = n % 2 := by
      rcases Nat.mod_two_eq_zero_or_one n with h | h <;> simp [h]
    rw [hmod]
    omega

theorem popcount_le_of_lt {k n : Nat} (h : n < 2 ^ k) : popcount n ≤ k := by
  rw [popcount_eq_sum h]
  calc (∑ i ∈ Finset.range k, if n.testBit i then 1 else 0)
      ≤ ∑ _i ∈ Finset.range k, 1 :=
        Finset.sum_le_sum fun i _ => by split <;> omega
    _ = k := by simp

theorem popcount_two_pow_or {e x : Nat} (h : x.testBit e = false) :
    popcount (2 ^ e ||| x) = popcount x + 1 := by
  have hx : x < 2 ^ (x + e + 1) :=
    lt_of_lt_of_le (Nat.lt_two_pow x) (Nat.pow_le_pow_right (by omega) (by omega))
  have hek : e < x + e + 1 := by omega
  have hpe : 2 ^ e < 2 ^ (x + e + 1) := Nat.pow_lt_pow_right (by omega) hek
  have hor : 2 ^ e ||| x < 2 ^ (x + e + 1) := Nat.or_lt_two_pow hpe hx
  rw [popcount_eq_sum hor, popcount_eq_sum hx]
  have hcong : ∀ i ∈ Finset.range (x + e + 1),
      (if (2 ^ e ||| x).testBit i then (1 : Nat) else 0)
        = (if x.testBit i then 1 else 0) + (if i = e then 1 else 0) := by
    intro i _
    rw [Nat.testBit_or, Nat.testBit_two_pow]
    by_cases hie : i = e
    · subst hie; simp [h]
    · have : ¬ e = i := fun hh => hie hh.symm
      simp [this, hie]
  rw [Finset.sum_congr rfl hcong, Finset.sum_add_distrib]
  have : (∑ i ∈ Finset.range (x + e + 1), if i = e then (1 : Nat) else 0) = 1 := by
    rw [Finset.sum_ite_eq' (Finset.range (x + e + 1)) e fun _ => (1 : Nat)]
    simp [hek]
  rw [this]

/-! Lemmas about encode. -/

theorem encode_zero (es : List Nat) : encode es 0 = 0 := by
  induction es with
  | nil => rfl
  | cons e es ih => simp [encode, ih]

theorem testBit_encode_not_mem {es : List Nat} {i : Nat} (h : i ∉ es) (v : Nat) :
    (encode es v).testBit i = false := by
  induction es generalizing v with
  | nil => simp [encode]
  | cons e es ih =>
    have hne : e ≠ i := fun hh => h (hh ▸ List.mem_cons_self e es)
    have h' : i ∉ es := fun hm => h (List.mem_cons_of_mem _ hm)
    simp only [encode, Nat.testBit_or, ih h', Bool.or_false]
    split
    · rw [one_shiftLeft_eq, Nat.testBit_two_pow_of_ne hne]
    · simp

theorem testBit_encode_sub {es : List Nat} {v i : Nat}
    (h : (encode es v).testBit i = true) : (maskOf es).testBit i = true := by
  induction es generalizing v with
  | nil => simp [encode] at h
  | cons e es ih =>
    rw [maskOf_cons, Nat.testBit_or]
    simp only [encode, Nat.testBit_or] at h
    rcases Bool.or_eq_true_iff.mp h with hh | ht
    · have : (2 ^ e).testBit i = true := by
        by_cases hv : v % 2 = 1
        · simpa [hv, one_shiftLeft_eq] using hh
        · rw [if_neg hv] at hh; simp at hh
      simp [this]
    · simp [ih ht]

theorem encode_le_maskOf (es : List Nat) (v : Nat) : encode es v ≤ maskOf es :=
  Nat.le_of_testBit fun _ h => testBit_encode_sub h

theorem encode_and_maskOf (es : List Nat) (v : Nat) :
    encode es v &&& maskOf es = encode es v :=
  and_eq_left_iff.mpr fun _ h => testBit_encode_sub h

theorem encode_lt {es : List Nat} (h64 : ∀ x ∈ es, x < 64) (v : Nat) :
    encode es v < 2 ^ 64 :=
  lt_of_le_of_lt (encode_le_maskOf es v) (maskOf_lt h64)

theorem encode_full {es : List Nat} (hd : es.Nodup) :
    encode es (2 ^ es.length - 1) = maskOf es := by
  induction es with
  | nil => rfl
  | cons e es ih =>
    obtain ⟨_, hd'⟩ := List.nodup_cons.mp hd
    have hp : 0 < 2 ^ es.length := Nat.pos_pow_of_pos _ (by omega)
    have h2 : 2 ^ (es.length + 1) = 2 ^ es.length * 2 := by rw [Nat.pow_succ]
    have h1 : (2 ^ (e :: es).length - 1) % 2 = 1 := by
      simp only [List.length_cons]; omega
    have hdiv : (2 ^ (e :: es).length - 1) / 2 = 2 ^ es.length - 1 := by
      simp only [List.length_cons]; omega
    simp only [encode, h1, hdiv, if_pos, ih hd', maskOf_cons, one_shiftLeft_eq]

theorem encode_inj {es : List Nat} (hd : es.Nodup) :
    ∀ {v w : Nat}, v < 2 ^ es.length → w < 2 ^ es.length →
      encode es v = encode es w → v = w := by
  induction es with
  | nil =>
    intro v w hv hw _
    simp only [List.length_nil, pow_zero, Nat.lt_one_iff] at hv hw
    omega
  | cons e es ih =>
    intro v w hv hw heq
    obtain ⟨he, hd'⟩ := List.nodup_cons.mp hd
    have hbit := congrArg (fun x => x.testBit e) heq
    simp only [encode, Nat.testBit_or, testBit_encode_not_mem he, Bool.or_false] at hbit
    have hmod : v % 2 = w % 2 := by
      by_cases hv2 : v % 2 = 1 <;> by_cases hw2 : w % 2 = 1
      · omega
      · rw [if_pos hv2, if_neg hw2, one_shiftLeft_eq, Nat.testBit_two_pow_self] at hbit
        simp at hbit
      · rw [if_neg hv2, if_pos hw2, one_shiftLeft_eq, Nat.testBit_two_pow_self] at hbit
        simp at hbit
      · omega
    have htail : encode es (v / 2) = encode es (w / 2) := by
      apply Nat.eq_of_testBit_eq
      intro i
      by_cases hie : i = e
      · subst hie
        rw [testBit_encode_not_mem he, testBit_encode_not_mem he]
      · have hhead : ∀ u : Nat,
            ((if u % 2 = 1 then 1 <<< e else 0).testBit i) = false := by
          intro u
          split
          · rw [one_shiftLeft_eq]
            exact Nat.testBit_two_pow_of_ne fun hh => hie hh.symm
          · simp
        have h' := congrArg (fun x => x.testBit i) heq
        simp only [encode, Nat.testBit_or, hhead, Bool.false_or] at h'
        exact h'
    have h2 : 2 ^ (e :: es).length = 2 ^ es.length * 2 := by
      simp [List.length_cons, Nat.pow_succ]
    have hv2 : v / 2 < 2 ^ es.length := by omega
    have hw2 : w / 2 < 2 ^ es.length := by omega
    have := ih hd' hv2 hw2 htail
    omega

theorem encode_surj {es : List Nat} (hd : es.Nodup) :
    ∀ {S : Nat}, S &&& maskOf es = S → ∃ v, v < 2 ^ es.length ∧ encode es v = S := by
  induction es with
  | nil =>
    intro S hS
    refine ⟨0, by simp, ?_⟩
    have hz : S = 0 := by
      have : S &&& 0 = S := hS
      simpa using this.symm
    simp [encode, hz]
  | cons e es ih =>
    intro S hS
    obtain ⟨he, hd'⟩ := List.nodup_cons.mp hd
    have hsub := and_eq_left_iff.mp hS
    have hS' : (S &&& maskOf es) &&& maskOf es = S &&& maskOf es := by
      rw [Nat.and_assoc, Nat.and_self]
    obtain ⟨v', hv', henc⟩ := ih hd' hS'
    have h2 : 2 ^ (e :: es).length = 2 ^ es.length * 2 := by
      simp [List.length_cons, Nat.pow_succ]
    have hMes : (maskOf es).testBit e = false := by
      rw [testBit_maskOf]; simp [he]
    have hrest : ∀ i, ¬ i = e →
        (S &&& maskOf es).testBit i = S.testBit i := by
      intro i hie
      rw [Nat.testBit_and]
      cases hSi : S.testBit i with
      | false => simp
      | true =>
        have := hsub i hSi
        rw [maskOf_cons, Nat.testBit_or, Nat.testBit_two_pow] at this
        have hne : ¬ e = i := fun hh => hie hh.symm
        rw [decide_eq_false hne, Bool.false_or] at this
        simp [this]
    by_cases hSe : S.testBit e = true
    · refine ⟨2 * v' + 1, by omega, ?_⟩
      have hm : (2 * v' + 1) % 2 = 1 := by omega
      have hq : (2 * v' + 1) / 2 = v' := by omega
      simp only [encode, hm, hq, if_pos, henc]
      apply Nat.eq_of_testBit_eq
      intro i
      rw [Nat.testBit_or, one_shiftLeft_eq, Nat.testBit_two_pow]
      by_cases hie : i = e
      · subst hie; simp [hSe]
      · have hne : ¬ e = i := fun hh => hie hh.symm
        rw [decide_eq_false hne, Bool.false_or]
        exact hrest i hie
    · refine ⟨2 * v', by omega, ?_⟩
      have hm : ¬ (2 * v') % 2 = 1 := by omega
      have hq : (2 * v') / 2 = v' := by omega
      show (if (2 * v') % 2 = 1 then 1 <<< e else 0) ||| encode es (2 * v' / 2) = S
      rw [if_neg hm, hq, henc, Nat.zero_or]
      apply Nat.eq_of_testBit_eq
      intro i
      by_cases hie : i = e
      · subst hie
        rw [Nat.testBit_and, hMes]
        simp only [Bool.and_false]
        exact (Bool.eq_false_iff.mpr hSe).symm
      · exact hrest i hie

/-! Lemmas about the jump sequence. -/

theorem seqFrom_length (a : Nat) (xs : List Nat) :
    (seqFrom a xs).length = xs.length := by
  induction xs generalizing a with
  | nil => rfl
  | cons x xs ih => simp [seqFrom, ih]

theorem seqFrom_or (a : Nat) (xs : List Nat) :
    ∀ c, seqFrom (a ||| c) xs = (seqFrom c xs).map (a ||| ·) := by
  induction xs with
  | nil => intro c; rfl
  | cons x xs ih =>
    intro c
    simp only [seqFrom, List.map_cons, Nat.or_assoc, ih]

theorem seqFrom_zero_cons (e : Nat) (es : List Nat) :
    seqFrom 0 (e :: es)
      = (1 <<< e) :: (seqFrom 0 es).map ((1 <<< e) ||| ·) := by
  have h0 : (0 : Nat) ||| 1 <<< e = 1 <<< e := Nat.zero_or _
  have h1 := seqFrom_or (1 <<< e) es 0
  rw [Nat.or_zero] at h1
  simp only [seqFrom, h0, h1]

theorem mem_seqFrom_testBit :
    ∀ {xs : List Nat} {a s i : Nat}, s ∈ seqFrom a xs → s.testBit i = true →
      (a ||| maskOf xs).testBit i = true := by
  intro xs
  induction xs with
  | nil => intro a s i hs; simp [seqFrom] at hs
  | cons x xs ih =>
    intro a s i hs hbit
    rw [seqFrom] at hs
    rw [maskOf_cons, Nat.testBit_or, Nat.testBit_or]
    rcases List.mem_cons.mp hs with hh | ht
    · subst hh
      rw [Nat.testBit_or, one_shiftLeft_eq] at hbit
      rcases Bool.or_eq_true_iff.mp hbit with h1 | h2
      · simp [h1]
      · simp [h2]
    · have := ih ht hbit
      rw [Nat.testBit_or, Nat.testBit_or, one_shiftLeft_eq] at this
      rcases Bool.or_eq_true_iff.mp this with h1 | h2
      · rcases Bool.or_eq_true_iff.mp h1 with ha | hx
        · simp [ha]
        · simp [hx]
      · simp [h2]

theorem mem_seqFrom_zero_sub {xs : List Nat} {s i : Nat}
    (hs : s ∈ seqFrom 0 xs) (hbit : s.testBit i = true) :
    (maskOf xs).testBit i = true := by
  have := mem_seqFrom_testBit hs hbit
  rwa [Nat.zero_or] at this

theorem maskOf_mem_seqFrom : ∀ {es : List Nat}, es ≠ [] →
    maskOf es ∈ seqFrom 0 es := by
  intro es
  induction es with
  | nil => intro h; exact absurd rfl h
  | cons e es ih =>
    intro _
    rw [seqFrom_zero_cons]
    cases es with
    | nil =>
      have : maskOf [e] = 1 <<< e := by
        simp [maskOf, Nat.zero_or]
      rw [this]
      exact List.mem_cons_self _ _
    | cons e' es' =>
      have hmem := ih (by simp)
      have : maskOf (e :: e' :: es') = (1 <<< e) ||| maskOf (e' :: es') := by
        rw [maskOf_cons, one_shiftLeft_eq]
      rw [this]
      exact List.mem_cons_of_mem _ (List.mem_map_of_mem _ hmem)

theorem xor_two_pow_of_testBit_false {x e : Nat} (h : x.testBit e = false) :
    x ^^^ 2 ^ e = 2 ^ e ||| x := by
  apply Nat.eq_of_testBit_eq
  intro i
  rw [Nat.testBit_xor, Nat.testBit_or, Nat.testBit_two_pow]
  by_cases hie : i = e
  · subst hie; simp [h]
  · have hne : ¬ e = i := fun hh => hie hh.symm
    simp [hne]

theorem or_two_pow_cancel {e x y : Nat} (hx : x.testBit e = false)
    (hy : y.testBit e = false) (h : 2 ^ e ||| x = 2 ^ e ||| y) : x = y := by
  apply Nat.eq_of_testBit_eq
  intro i
  by_cases hie : i = e
  · subst hie; rw [hx, hy]
  · have hne : ¬ e = i := fun hh => hie hh.symm
    have h' := congrArg (fun z => z.testBit i) h
    simp only [Nat.testBit_or, Nat.testBit_two_pow, decide_eq_false hne,
      Bool.false_or] at h'
    exact h'

theorem xor_or_two_pow_cancel {e x y : Nat} (hx : x.testBit e = false)
    (hy : y.testBit e = false) :
    (2 ^ e ||| x) ^^^ (2 ^ e ||| y) = x ^^^ y := by
  apply Nat.eq_of_testBit_eq
  intro i
  rw [Nat.testBit_xor, Nat.testBit_or, Nat.testBit_or, Nat.testBit_xor,
    Nat.testBit_two_pow]
  by_cases hie : i = e
  · subst hie; simp [hx, hy]
  · have hne : ¬ e = i := fun hh => hie hh.symm
    simp [decide_eq_false hne]

theorem findIdx?_congr {α : Type} {p q : α → Bool} :
    ∀ (l : List α) (i : Nat), (∀ x ∈ l, p x = q x) →
      l.findIdx? p i = l.findIdx? q i := by
  intro l
  induction l with
  | nil => intro i _; rfl
  | cons x xs ih =>
    intro i h
    rw [List.findIdx?_cons, List.findIdx?_cons, h x (List.mem_cons_self _ _)]
    split
    · rfl
    · exact ih (i + 1) fun y hy => h y (List.mem_cons_of_mem _ hy)

theorem bne_congr {a b c d : Nat} (h : (a = b) ↔ (c = d)) :
    (a != b) = (c != d) := by
  rw [Bool.eq_iff_iff, bne_iff_ne, bne_iff_ne]
  exact not_congr h

/-- One iteration of the successor search and update (lines 135-139): on a
proper subset, decoded as counter value v, the search finds an index t
below the number of elements, the update steps to the decoding of v + 1,
and the size bookkeeping of line 139 tracks popcount exactly. -/
theorem step_spec :
    ∀ (elems : List Nat), elems.Nodup →
    ∀ v : Nat, v + 1 < 2 ^ elems.length →
    ∃ t, ((seqFrom 0 elems).findIdx? fun s =>
            (encode elems v ||| s) != encode elems v) = some t
      ∧ t < elems.length
      ∧ encode elems v ^^^ (seqFrom 0 elems).getD t 0 = encode elems (v + 1)
      ∧ (popcount (encode elems v) : Int) - ((t : Int) - 1)
          = (popcount (encode elems (v + 1)) : Int) := by
  intro elems
  induction elems with
  | nil =>
    intro _ v hv
    simp only [List.length_nil, pow_zero] at hv
    omega
  | cons e es ih =>
    intro hd v hv
    obtain ⟨he, hd'⟩ := List.nodup_cons.mp hd
    have h2 : 2 ^ (e :: es).length = 2 ^ es.length * 2 := by
      simp [List.length_cons, Nat.pow_succ]
    have hEe : ∀ w, (encode es w).testBit e = false :=
      testBit_encode_not_mem he
    by_cases hodd : v % 2 = 1
    · -- v odd: the first jump entry is already inside subset; recurse on es
      have hsub : encode (e :: es) v = 1 <<< e ||| encode es (v / 2) := by
        show (if v % 2 = 1 then 1 <<< e else 0) ||| encode es (v / 2) = _
        rw [if_pos hodd]
      have hv' : v / 2 + 1 < 2 ^ es.length := by omega
      obtain ⟨t', hfind', ht'len, hxor', hsize'⟩ := ih hd' (v / 2) hv'
      have hSe : (encode (e :: es) v).testBit e = true := by
        rw [hsub, Nat.testBit_or, one_shiftLeft_eq, Nat.testBit_two_pow_self]
        simp
      have hhead : encode (e :: es) v ||| 1 <<< e = encode (e :: es) v := by
        apply or_eq_left_iff.mpr
        intro i hi
        rw [one_shiftLeft_eq, Nat.testBit_two_pow] at hi
        have hei : e = i := by simpa using hi
        exact hei ▸ hSe
      have hseq := seqFrom_zero_cons e es
      -- the Boolean search over the consed sequence reduces to the search
      -- over the tail sequence against the tail subset
      have hbool : ∀ s' ∈ seqFrom 0 es,
          ((encode (e :: es) v ||| ((1 <<< e) ||| s')) != encode (e :: es) v)
            = ((encode es (v / 2) ||| s') != encode es (v / 2)) := by
        intro s' hs'
        apply bne_congr
        have hse : s'.testBit e = false := by
          cases hbit : s'.testBit e with
          | false => rfl
          | true =>
            have := mem_seqFrom_zero_sub hs' hbit
            rw [testBit_maskOf] at this
            simp [he] at this
        have hrw : encode (e :: es) v ||| ((1 <<< e) ||| s')
            = 2 ^ e ||| (encode es (v / 2) ||| s') := by
          rw [hsub, one_shiftLeft_eq]
          rw [← Nat.or_assoc, Nat.or_assoc (2 ^ e) (encode es (v / 2)) (2 ^ e)]
          rw [Nat.or_comm (encode es (v / 2)) (2 ^ e), ← Nat.or_assoc,
            Nat.or_self, Nat.or_assoc]
        rw [hrw, hsub, one_shiftLeft_eq]
        constructor
        · intro hh
          exact or_two_pow_cancel
            (by rw [Nat.testBit_or, hEe (v / 2), hse]; rfl) (hEe (v / 2)) hh
        · intro hh; rw [hh]
      refine ⟨t' + 1, ?_, by simpa using ht'len, ?_, ?_⟩
      · rw [hseq, List.findIdx?_cons,
          if_neg (by rw [hhead]; simp)]
        rw [List.findIdx?_start_succ, List.findIdx?_map]
        have hcongr := findIdx?_congr (p := fun s =>
            (encode (e :: es) v ||| ((1 <<< e) ||| s)) != encode (e :: es) v)
          (q := fun s => (encode es (v / 2) ||| s) != encode es (v / 2))
          (seqFrom 0 es) 0 hbool
        have hcomp : ((fun s => (encode (e :: es) v ||| s) != encode (e :: es) v)
            ∘ ((1 <<< e) ||| ·)) = fun s =>
            (encode (e :: es) v ||| ((1 <<< e) ||| s)) != encode (e :: es) v := rfl
        rw [hcomp, hcongr, hfind']
        rfl
      · -- the xor update cancels the shared element e and steps the tail
        have hlen' : t' < (seqFrom 0 es).length := by
          rw [seqFrom_length]; exact ht'len
        have hgd : (seqFrom 0 (e :: es)).getD (t' + 1) 0
            = (1 <<< e) ||| (seqFrom 0 es).getD t' 0 := by
          rw [hseq]
          show ((seqFrom 0 es).map ((1 <<< e) ||| ·)).getD t' 0 = _
          rw [List.getD_eq_getElem?_getD, List.getElem?_map,
            List.getElem?_eq_getElem hlen', List.getD_eq_getElem?_getD,
            List.getElem?_eq_getElem hlen']
          rfl
        have hmem : (seqFrom 0 es).getD t' 0 ∈ seqFrom 0 es := by
          rw [List.getD_eq_getElem?_getD, List.getElem?_eq_getElem hlen']
          exact List.getElem_mem hlen'
        have hse : ((seqFrom 0 es).getD t' 0).testBit e = false := by
          cases hbit : ((seqFrom 0 es).getD t' 0).testBit e with
          | false => rfl
          | true =>
            have := mem_seqFrom_zero_sub hmem hbit
            rw [testBit_maskOf] at this
            simp [he] at this
        rw [hgd, hsub, one_shiftLeft_eq,
          xor_or_two_pow_cancel (hEe (v / 2)) hse, hxor']
        have hm : ¬ (v + 1) % 2 = 1 := by omega
        have hq : (v + 1) / 2 = v / 2 + 1 := by omega
        show _ = (if (v + 1) % 2 = 1 then 1 <<< e else 0) ||| encode es ((v + 1) / 2)
        rw [if_neg hm, hq, Nat.zero_or]
      · have hm : ¬ (v + 1) % 2 = 1 := by omega
        have hq : (v + 1) / 2 = v / 2 + 1 := by omega
        have henc1 : encode (e :: es) (v + 1) = encode es (v / 2 + 1) := by
          show (if (v + 1) % 2 = 1 then 1 <<< e else 0) ||| encode es ((v + 1) / 2) = _
          rw [if_neg hm, hq, Nat.zero_or]
        rw [hsub, henc1, one_shiftLeft_eq, popcount_two_pow_or (hEe (v / 2))]
        push_cast at hsize' ⊢
        omega
    · -- v even: the first jump entry is not inside subset; take t = 0
      have hsub : encode (e :: es) v = encode es (v / 2) := by
        show (if v % 2 = 1 then 1 <<< e else 0) ||| encode es (v / 2) = _
        rw [if_neg hodd, Nat.zero_or]
      have hbit : (encode (e :: es) v).testBit e = false := by
        rw [hsub]; exact hEe _
      have hne : (encode (e :: es) v ||| 1 <<< e) ≠ encode (e :: es) v := by
        intro hcontra
        have h' := congrArg (fun x => x.testBit e) hcontra
        simp only [Nat.testBit_or, one_shiftLeft_eq, Nat.testBit_two_pow_self,
          Bool.or_true] at h'
        rw [hbit] at h'
        cases h'
      refine ⟨0, ?_, by simp, ?_, ?_⟩
      · rw [seqFrom_zero_cons, List.findIdx?_cons]
        rw [if_pos (bne_iff_ne.mpr hne)]
      · rw [seqFrom_zero_cons]
        have hgd : ((1 <<< e) :: (seqFrom 0 es).map ((1 <<< e) ||| ·)).getD 0 0
            = 1 <<< e := rfl
        rw [hgd, one_shiftLeft_eq, hsub,
          xor_two_pow_of_testBit_false (hEe (v / 2))]
        show 2 ^ e ||| encode es (v / 2) = encode (e :: es) (v + 1)
        have hm : (v + 1) % 2 = 1 := by omega
        have hq : (v + 1) / 2 = v / 2 := by omega
        show _ = (if (v + 1) % 2 = 1 then 1 <<< e else 0) ||| encode es ((v + 1) / 2)
        rw [if_pos hm, hq, one_shiftLeft_eq]
      · have hm : (v + 1) % 2 = 1 := by omega
        have hq : (v + 1) / 2 = v / 2 := by omega
        have henc1 : encode (e :: es) (v + 1) = 2 ^ e ||| encode es (v / 2) := by
          show (if (v + 1) % 2 = 1 then 1 <<< e else 0) ||| encode es ((v + 1) / 2) = _
          rw [if_pos hm, hq, one_shiftLeft_eq]
        rw [hsub, henc1, popcount_two_pow_or (hEe (v / 2))]
        push_cast
        omega

/-! Lemmas about the histogram update, the containment scan, and one
unfolding step of the inner loop. -/

theorem bump_some {hist : List Nat} {k : Nat} (hk : k < 65) :
    bump hist (k : Int) = some (hist.set k (hist.getD k 0 + 1)) := by
  have h0 : (0 : Int) ≤ (k : Int) := Int.natCast_nonneg k
  have h65 : (k : Int) < 65 := by exact_mod_cast hk
  rw [bump, if_pos ⟨h0, h65⟩]
  simp

theorem getD_set_self {l : List Nat} {i a : Nat} (h : i < l.length) :
    (l.set i a).getD i 0 = a := by
  rw [List.getD_eq_getElem?_getD, List.getElem?_set_self h]
  rfl

theorem getD_set_ne {l : List Nat} {i j a : Nat} (h : i ≠ j) :
    (l.set i a).getD j 0 = l.getD j 0 := by
  rw [List.getD_eq_getElem?_getD, List.getD_eq_getElem?_getD,
    List.getElem?_set_ne h]

theorem contained_iff {prev : List Nat} {S : Nat} :
    contained prev S = true ↔ ∃ B ∈ prev, S &&& B = S := by
  simp [contained, List.any_eq_true]

theorem contained_eq_false_iff {prev : List Nat} {S : Nat} :
    contained prev S = false ↔ ∀ B ∈ prev, ¬ (S &&& B = S) := by
  rw [← Bool.not_eq_true, contained_iff]
  push_neg
  rfl

theorem innerLoop_exit (prev : List Nat) (A : Nat) (seq : List Nat) (f : Nat)
    (size : Int) (hist : List Nat) :
    innerLoop prev A seq (f + 1) A size hist = some (size, hist) := by
  simp [innerLoop]

theorem innerLoop_step (prev : List Nat) (A : Nat) (seq : List Nat) (f : Nat)
    (subset : Nat) (size : Int) (hist h1 : List Nat) (t : Nat)
    (hne : subset ≠ A)
    (hh1 : (if contained prev subset then some hist else bump hist size) = some h1)
    (hfind : (seq.findIdx? fun s => (subset ||| s) != subset) = some t) :
    innerLoop prev A seq (f + 1) subset size hist
      = innerLoop prev A seq f (subset ^^^ seq.getD t 0)
          (size - ((t : Int) - 1)) h1 := by
  conv_lhs => rw [innerLoop]
  rw [if_neg hne, hh1, hfind]

theorem card_filter_Ico_succ_left {a b : Nat} (hab : a < b)
    (P : Nat → Prop) [DecidablePred P] :
    ((Finset.Ico a b).filter P).card
      = (if P a then 1 else 0) + ((Finset.Ico (a + 1) b).filter P).card := by
  have hsplit : Finset.Ico a b = Finset.Ico a (a + 1) ∪ Finset.Ico (a + 1) b :=
    (Finset.Ico_union_Ico_eq_Ico (by omega) (by omega)).symm
  rw [hsplit, Finset.filter_union, Finset.card_union_of_disjoint
    (Finset.disjoint_filter_filter (Finset.Ico_disjoint_Ico_consecutive a (a + 1) b))]
  congr 1
  rw [Nat.Ico_succ_singleton, Finset.filter_singleton]
  split <;> simp

/-- Full specification of the inner while loop: started at the decoding of
counter value v with the correct size, it runs to subset = A, returning
the size of A and the input histogram incremented once per subset
encode w (v ≤ w < 2 ^ m - 1) that no earlier base set contains. -/
theorem innerLoop_spec (prev : List Nat) {elems : List Nat} (hd : elems.Nodup)
    (h64 : ∀ x ∈ elems, x < 64) :
    ∀ (n v : Nat) (hist : List Nat) (fuel : Nat),
      v + n = 2 ^ elems.length - 1 → v < 2 ^ elems.length →
      hist.length = 65 → n < fuel →
      ∃ h, innerLoop prev (maskOf elems) (seqFrom 0 elems) fuel
            (encode elems v) ((popcount (encode elems v) : Nat) : Int) hist
          = some (((popcount (maskOf elems) : Nat) : Int), h)
        ∧ h.length = 65
        ∧ ∀ k, k < 65 → h.getD k 0 = hist.getD k 0 +
            ((Finset.Ico v (2 ^ elems.length - 1)).filter fun w =>
              contained prev (encode elems w) = false
                ∧ popcount (encode elems w) = k).card := by
  intro n
  induction n with
  | zero =>
    intro v hist fuel hvn hv hlen hfuel
    obtain ⟨f, rfl⟩ : ∃ f, fuel = f + 1 := ⟨fuel - 1, by omega⟩
    have hveq : v = 2 ^ elems.length - 1 := by omega
    subst hveq
    rw [encode_full hd, innerLoop_exit]
    exact ⟨hist, rfl, hlen, fun k _ => by simp⟩
  | succ n ihn =>
    intro v hist fuel hvn hv hlen hfuel
    obtain ⟨f, rfl⟩ : ∃ f, fuel = f + 1 := ⟨fuel - 1, by omega⟩
    have hpow : 0 < 2 ^ elems.length := Nat.pos_pow_of_pos _ (by omega)
    have hv1 : v + 1 < 2 ^ elems.length := by omega
    have hne : encode elems v ≠ maskOf elems := by
      intro hcontra
      rw [← encode_full hd] at hcontra
      have := encode_inj hd hv (by omega) hcontra
      omega
    have hpc : popcount (encode elems v) < 65 := by
      have := popcount_le_of_lt (encode_lt h64 v)
      omega
    obtain ⟨t, hfind, htlen, hxor, hsize⟩ := step_spec elems hd v hv1
    -- the histogram after the conditional increment of line 131
    obtain ⟨h1, hh1, hlen1, hpt1⟩ :
        ∃ h1, (if contained prev (encode elems v) then some hist
                else bump hist ((popcount (encode elems v) : Nat) : Int)) = some h1
          ∧ h1.length = 65
          ∧ ∀ k, k < 65 → h1.getD k 0 = hist.getD k 0 +
              (if contained prev (encode elems v) = false
                  ∧ popcount (encode elems v) = k then 1 else 0) := by
      cases hc : contained prev (encode elems v) with
      | true =>
        refine ⟨hist, by rw [if_pos rfl], hlen, fun k _ => ?_⟩
        simp
      | false =>
        refine ⟨hist.set (popcount (encode elems v))
            (hist.getD (popcount (encode elems v)) 0 + 1), ?_, ?_, ?_⟩
        · rw [if_neg (by simp), bump_some hpc]
        · rw [List.length_set]; exact hlen
        · intro k hk
          by_cases hkc : popcount (encode elems v) = k
          · subst hkc
            rw [getD_set_self (by omega)]
            simp
          · rw [getD_set_ne hkc]
            simp [hkc]
    rw [innerLoop_step prev (maskOf elems) (seqFrom 0 elems) f
      (encode elems v) _ hist h1 t hne hh1 hfind, hxor, hsize]
    obtain ⟨h, hrun, hlenh, hpt⟩ :=
      ihn (v + 1) h1 f (by omega) hv1 hlen1 (by omega)
    refine ⟨h, hrun, hlenh, fun k hk => ?_⟩
    have hcard : ((Finset.Ico v (2 ^ elems.length - 1)).filter fun w =>
          contained prev (encode elems w) = false
            ∧ popcount (encode elems w) = k).card
        = (if contained prev (encode elems v) = false
              ∧ popcount (encode elems v) = k then 1 else 0)
          + ((Finset.Ico (v + 1) (2 ^ elems.length - 1)).filter fun w =>
              contained prev (encode elems w) = false
                ∧ popcount (encode elems w) = k).card :=
      card_filter_Ico_succ_left (by omega) _
    rw [hpt k hk, hpt1 k hk, hcard]
    omega

theorem popcount_zero : popcount 0 = 0 := by simp [popcount]

theorem length_le_64 {elems : List Nat} (hd : elems.Nodup)
    (h64 : ∀ x ∈ elems, x < 64) : elems.length ≤ 64 := by
  have hsub : elems.toFinset ⊆ Finset.range 64 := by
    intro x hx
    rw [List.mem_toFinset] at hx
    exact Finset.mem_range.mpr (h64 x hx)
  have := Finset.card_le_card hsub
  rw [List.toFinset_card_of_nodup hd, Finset.card_range] at this
  exact this

/-- Counting along the encode bijection: filtering the counter range is
the same as filtering the subsets of the mask. -/
theorem card_filter_encode {elems : List Nat} (hd : elems.Nodup)
    (h64 : ∀ x ∈ elems, x < 64) (P : Nat → Prop) [DecidablePred P] :
    ((Finset.range (2 ^ elems.length)).filter fun w => P (encode elems w)).card
      = ((Finset.range (2 ^ 64)).filter fun S =>
          S &&& maskOf elems = S ∧ P S).card := by
  apply Finset.card_bij fun w _ => encode elems w
  · intro w hw
    rw [Finset.mem_filter, Finset.mem_range] at hw
    rw [Finset.mem_filter, Finset.mem_range]
    exact ⟨encode_lt h64 w, encode_and_maskOf elems w, hw.2⟩
  · intro w1 hw1 w2 hw2 heq
    rw [Finset.mem_filter, Finset.mem_range] at hw1 hw2
    exact encode_inj hd hw1.1 hw2.1 heq
  · intro S hS
    rw [Finset.mem_filter, Finset.mem_range] at hS
    obtain ⟨v, hv, henc⟩ := encode_surj hd hS.2.1
    refine ⟨v, ?_, henc⟩
    rw [Finset.mem_filter, Finset.mem_range, henc]
    exact ⟨hv, hS.2.2⟩

theorem card_filter_Ico_succ_right {a b : Nat} (hab : a ≤ b)
    (P : Nat → Prop) [DecidablePred P] :
    ((Finset.Ico a (b + 1)).filter P).card
      = ((Finset.Ico a b).filter P).card + (if P b then 1 else 0) := by
  have hsplit : Finset.Ico a (b + 1) = Finset.Ico a b ∪ Finset.Ico b (b + 1) :=
    (Finset.Ico_union_Ico_eq_Ico hab (by omega)).symm
  rw [hsplit, Finset.filter_union, Finset.card_union_of_disjoint
    (Finset.disjoint_filter_filter (Finset.Ico_disjoint_Ico_consecutive a b (b + 1)))]
  congr 1
  rw [Nat.Ico_succ_singleton, Finset.filter_singleton]
  split <;> simp

/-- Full specification of the body of the outer loop: processing one base
set adds, at every size k, the number of its subsets of size k that no
earlier base set contains. -/
theorem processSet_spec (prev : List Nat) {elems : List Nat} (hd : elems.Nodup)
    (h64 : ∀ x ∈ elems, x < 64) (hist : List Nat) (hlen : hist.length = 65) :
    ∃ h, processSet prev (maskOf elems) (seqFrom 0 elems) hist = some h
      ∧ h.length = 65
      ∧ ∀ k, k < 65 → h.getD k 0 = hist.getD k 0
          + (newOfSize prev (maskOf elems) k).card := by
  have hm64 : elems.length ≤ 64 := length_le_64 hd h64
  have hfuel : 2 ^ elems.length - 1 < 2 ^ 64 := by
    have := Nat.pow_le_pow_right (show 1 ≤ 2 by omega) hm64
    have := Nat.pos_pow_of_pos elems.length (show 0 < 2 by omega)
    omega
  have hpos : 0 < 2 ^ elems.length := Nat.pos_pow_of_pos _ (by omega)
  obtain ⟨hL, hrunL, hlenL, hptL⟩ :=
    innerLoop_spec prev hd h64 (2 ^ elems.length - 1) 0 hist (2 ^ 64)
      (by omega) hpos hlen hfuel
  rw [encode_zero, popcount_zero, Nat.cast_zero] at hrunL
  have hpcA : popcount (maskOf elems) < 65 := by
    have := popcount_le_of_lt (maskOf_lt h64)
    omega
  -- the per-size count over counter values, as used by the loop
  have hcount : ∀ k, (newOfSize prev (maskOf elems) k).card
      = ((Finset.Ico 0 (2 ^ elems.length - 1)).filter fun w =>
          contained prev (encode elems w) = false
            ∧ popcount (encode elems w) = k).card
        + (if contained prev (maskOf elems) = false
              ∧ popcount (maskOf elems) = k then 1 else 0) := by
    intro k
    have hbij := card_filter_encode hd h64
      (fun S => contained prev S = false ∧ popcount S = k)
    have hsplit : ((Finset.Ico 0 ((2 ^ elems.length - 1) + 1)).filter fun w =>
          contained prev (encode elems w) = false
            ∧ popcount (encode elems w) = k).card
        = ((Finset.Ico 0 (2 ^ elems.length - 1)).filter fun w =>
            contained prev (encode elems w) = false
              ∧ popcount (encode elems w) = k).card
          + (if contained prev (encode elems (2 ^ elems.length - 1)) = false
                ∧ popcount (encode elems (2 ^ elems.length - 1)) = k
              then 1 else 0) :=
      card_filter_Ico_succ_right (by omega) _
    rw [encode_full hd] at hsplit
    have hIco : Finset.Ico 0 ((2 ^ elems.length - 1) + 1)
        = Finset.range (2 ^ elems.length) := by
      rw [Finset.range_eq_Ico]
      congr 1
      omega
    rw [hIco] at hsplit
    rw [newOfSize, ← hbij, hsplit]
  rw [processSet, hrunL]
  cases hc : contained prev (maskOf elems) with
  | true =>
    refine ⟨hL, rfl, hlenL, fun k hk => ?_⟩
    rw [hptL k hk, hcount k, hc]
    simp
  | false =>
    refine ⟨hL.set (popcount (maskOf elems))
        (hL.getD (popcount (maskOf elems)) 0 + 1), ?_, ?_, ?_⟩
    · show bump hL ((popcount (maskOf elems) : Nat) : Int) = _
      exact bump_some hpcA
    · rw [List.length_set]; exact hlenL
    · intro k hk
      rw [hcount k, hc]
      by_cases hkc : popcount (maskOf elems) = k
      · subst hkc
        rw [getD_set_self (by omega), hptL _ hk]
        simp
        omega
      · rw [getD_set_ne hkc, hptL k hk]
        simp [hkc]

theorem contained_append_singleton (prev : List Nat) (A S : Nat) :
    contained (prev ++ [A]) S = (contained prev S || (S &&& A == S)) := by
  simp [contained, List.any_append]

/-- Splitting the newly counted subsets at the first base set: a subset
counted for the list A :: rest is counted either for A or for rest with A
added to the processed sets; the two classes are disjoint. -/
theorem newCovered_cons (prev : List Nat) (A : Nat) (masks : List Nat) (k : Nat) :
    (newCovered prev (A :: masks) k).card
      = (newOfSize prev A k).card + (newCovered (prev ++ [A]) masks k).card := by
  have hset : newCovered prev (A :: masks) k
      = newOfSize prev A k ∪ newCovered (prev ++ [A]) masks k := by
    ext S
    simp only [newCovered, newOfSize, Finset.mem_union, Finset.mem_filter,
      List.mem_cons, contained_append_singleton, Bool.or_eq_false_iff,
      beq_eq_false_iff_ne]
    constructor
    · rintro ⟨hrange, ⟨B, hB, hsub⟩, hcont, hpc⟩
      rcases hB with rfl | hB
      · exact Or.inl ⟨hrange, hsub, hcont, hpc⟩
      · by_cases hSA : S &&& A = S
        · exact Or.inl ⟨hrange, hSA, hcont, hpc⟩
        · exact Or.inr ⟨hrange, ⟨B, hB, hsub⟩, ⟨hcont, hSA⟩, hpc⟩
    · rintro (⟨hrange, hsub, hcont, hpc⟩ | ⟨hrange, ⟨B, hB, hsub⟩, ⟨hcont, _⟩, hpc⟩)
      · exact ⟨hrange, ⟨A, Or.inl rfl, hsub⟩, hcont, hpc⟩
      · exact ⟨hrange, ⟨B, Or.inr hB, hsub⟩, hcont, hpc⟩
  have hdisj : Disjoint (newOfSize prev A k) (newCovered (prev ++ [A]) masks k) := by
    rw [Finset.disjoint_left]
    intro S hS1 hS2
    simp only [newOfSize, Finset.mem_filter] at hS1
    simp only [newCovered, Finset.mem_filter, contained_append_singleton,
      Bool.or_eq_false_iff, beq_eq_false_iff_ne] at hS2
    exact hS2.2.2.1.2 hS1.2.1
  rw [hset, Finset.card_union_of_disjoint hdisj]

/-- Full specification of the outer loop over the remaining lines. -/
theorem computeAux_spec :
    ∀ (lines : List (List Nat)),
      (∀ l ∈ lines, l.Nodup ∧ ∀ x ∈ l, x < 64) →
    ∀ (prev hist : List Nat), hist.length = 65 →
    ∃ h, computeAux (lines.map buildLine) prev hist = some h
      ∧ h.length = 65
      ∧ ∀ k, k < 65 → h.getD k 0 = hist.getD k 0
          + (newCovered prev (lines.map maskOf) k).card := by
  intro lines
  induction lines with
  | nil =>
    intro _ prev hist hlen
    refine ⟨hist, rfl, hlen, fun k _ => ?_⟩
    simp [newCovered]
  | cons l ls ih =>
    intro hval prev hist hlen
    obtain ⟨hdl, h64l⟩ := hval l (List.mem_cons_self _ _)
    have hvalrest := fun l' hl' => hval l' (List.mem_cons_of_mem _ hl')
    obtain ⟨h1, hrun1, hlen1, hpt1⟩ := processSet_spec prev hdl h64l hist hlen
    obtain ⟨h, hrun, hlenh, hpt⟩ := ih hvalrest (prev ++ [maskOf l]) h1 hlen1
    refine ⟨h, ?_, hlenh, fun k hk => ?_⟩
    · rw [List.map_cons, computeAux]
      show (match processSet prev (maskOf l) (seqFrom 0 l) hist with
        | none => none
        | some h => computeAux (ls.map buildLine) (prev ++ [maskOf l]) h) = some h
      rw [hrun1]
      exact hrun
    · rw [hpt k hk, hpt1 k hk, List.map_cons, newCovered_cons]
      omega

theorem replicate_getD (k : Nat) : (List.replicate 65 (0 : Nat)).getD k 0 = 0 := by
  rw [List.getD_eq_getElem?_getD, List.getElem?_replicate]
  split <;> rfl

theorem contained_nil (S : Nat) : contained [] S = false := rfl

/-- Full functional specification of Compute_numbers, at mask level. -/
theorem Compute_numbers_spec {lines : List (List Nat)}
    (hval : ∀ l ∈ lines, l.Nodup ∧ ∀ x ∈ l, x < 64) :
    ∃ h, Compute_numbers (Read_input lines).2 = some h ∧ h.length = 65
      ∧ ∀ k, k < 65 → h.getD k 0 = (coveredMask (lines.map maskOf) k).card := by
  obtain ⟨h, hrun, hlen, hpt⟩ :=
    computeAux_spec lines hval [] (List.replicate 65 0) (by simp)
  refine ⟨h, hrun, hlen, fun k hk => ?_⟩
  rw [hpt k hk, replicate_getD]
  have hcov : newCovered [] (lines.map maskOf) k
      = coveredMask (lines.map maskOf) k := by
    apply Finset.filter_congr
    intro S _
    simp [contained_nil]
  rw [hcov]
  omega

/-! Bridge between bitmasks and the subsets of 0..63 they denote. -/

theorem mem_toSet {S i : Nat} : i ∈ toSet S ↔ i < 64 ∧ S.testBit i = true := by
  rw [toSet, Finset.mem_filter, Finset.mem_range]

theorem popcount_eq_card_toSet {S : Nat} (hS : S < 2 ^ 64) :
    popcount S = (toSet S).card := by
  rw [toSet, popcount_eq_sum hS, Finset.card_filter]

theorem testBit_high_false {S i : Nat} (hS : S < 2 ^ 64) (hi : ¬ i < 64) :
    S.testBit i = false :=
  Nat.testBit_lt_two_pow
    (lt_of_lt_of_le hS (Nat.pow_le_pow_right (by omega) (by omega)))

theorem and_eq_left_iff_toSet {S A : Nat} (hS : S < 2 ^ 64) :
    S &&& A = S ↔ toSet S ⊆ toSet A := by
  rw [and_eq_left_iff]
  constructor
  · intro h x hx
    rw [mem_toSet] at hx ⊢
    exact ⟨hx.1, h x hx.2⟩
  · intro h i hi
    by_cases hi64 : i < 64
    · have hmem : i ∈ toSet S := mem_toSet.mpr ⟨hi64, hi⟩
      exact (mem_toSet.mp (h hmem)).2
    · rw [testBit_high_false hS hi64] at hi
      cases hi

theorem toSet_inj {S1 S2 : Nat} (h1 : S1 < 2 ^ 64) (h2 : S2 < 2 ^ 64)
    (heq : toSet S1 = toSet S2) : S1 = S2 := by
  apply Nat.eq_of_testBit_eq
  intro i
  by_cases hi : i < 64
  · have hm : (i ∈ toSet S1) = (i ∈ toSet S2) := by rw [heq]
    cases hb : S1.testBit i with
    | true =>
      have : i ∈ toSet S2 := hm ▸ mem_toSet.mpr ⟨hi, hb⟩
      exact ((mem_toSet.mp this).2).symm
    | false =>
      cases hb2 : S2.testBit i with
      | false => rfl
      | true =>
        have : i ∈ toSet S1 := hm ▸ mem_toSet.mpr ⟨hi, hb2⟩
        rw [(mem_toSet.mp this).2] at hb
        cases hb
  · rw [testBit_high_false h1 hi, testBit_high_false h2 hi]

theorem toSet_maskOf {l : List Nat} (h64 : ∀ x ∈ l, x < 64) :
    toSet (maskOf l) = l.toFinset := by
  ext x
  rw [mem_toSet, testBit_maskOf, List.mem_toFinset]
  constructor
  · rintro ⟨_, h⟩; exact of_decide_eq_true h
  · intro h; exact ⟨h64 x h, decide_eq_true h⟩

theorem toSet_maskOf_toList {X : Finset Nat} (hX : X ⊆ Finset.range 64) :
    toSet (maskOf X.toList) = X := by
  have h64 : ∀ x ∈ X.toList, x < 64 := fun x hx =>
    Finset.mem_range.mp (hX (Finset.mem_toList.mp hx))
  rw [toSet_maskOf h64]
  ext x
  rw [List.mem_toFinset, Finset.mem_toList]

theorem maskOf_toList_lt {X : Finset Nat} (hX : X ⊆ Finset.range 64) :
    maskOf X.toList < 2 ^ 64 :=
  maskOf_lt fun _ hx => Finset.mem_range.mp (hX (Finset.mem_toList.mp hx))

/-- The mask-level count of covered subsets agrees with the count of
covered k-element subsets of 0..63. -/
theorem card_coveredMask {lines : List (List Nat)}
    (h64 : ∀ l ∈ lines, ∀ x ∈ l, x < 64) (k : Nat) :
    (coveredMask (lines.map maskOf) k).card = (covered lines k).card := by
  apply Finset.card_bij fun S _ => toSet S
  · intro S hS
    rw [coveredMask, Finset.mem_filter, Finset.mem_range] at hS
    obtain ⟨hrange, ⟨A, hA, hsub⟩, hpc⟩ := hS
    obtain ⟨l, hl, rfl⟩ := List.mem_map.mp hA
    rw [covered, Finset.mem_filter, Finset.mem_powerset]
    refine ⟨fun _ hx => Finset.mem_range.mpr (mem_toSet.mp hx).1, ?_, l, hl, ?_⟩
    · rw [← popcount_eq_card_toSet hrange, hpc]
    · rw [← toSet_maskOf (h64 l hl)]
      exact (and_eq_left_iff_toSet hrange).mp hsub
  · intro S1 h1 S2 h2 heq
    rw [coveredMask, Finset.mem_filter, Finset.mem_range] at h1 h2
    exact toSet_inj h1.1 h2.1 heq
  · intro X hX
    rw [covered, Finset.mem_filter, Finset.mem_powerset] at hX
    obtain ⟨hXsub, hcard, l, hl, hXl⟩ := hX
    have hlt := maskOf_toList_lt hXsub
    have htS := toSet_maskOf_toList hXsub
    refine ⟨maskOf X.toList, ?_, htS⟩
    rw [coveredMask, Finset.mem_filter, Finset.mem_range]
    refine ⟨hlt, ⟨maskOf l, List.mem_map_of_mem _ hl, ?_⟩, ?_⟩
    · rw [and_eq_left_iff_toSet hlt, htS, toSet_maskOf (h64 l hl)]
      exact hXl
    · rw [popcount_eq_card_toSet hlt, htS, hcard]

/-- Full functional specification of the program: for valid input lines,
the computation succeeds and cell k of the histogram counts the distinct
k-element subsets of 0..63 contained in at least one base set. -/
theorem Compute_numbers_covered {lines : List (List Nat)}
    (hnd : ∀ l ∈ lines, l.Nodup) (h64 : ∀ l ∈ lines, ∀ x ∈ l, x < 64) :
    ∃ h, Compute_numbers (Read_input lines).2 = some h ∧ h.length = 65
      ∧ ∀ k, k < 65 → h.getD k 0 = (covered lines k).card := by
  obtain ⟨h, hrun, hlen, hpt⟩ :=
    Compute_numbers_spec (fun l hl => ⟨hnd l hl, h64 l hl⟩)
  exact ⟨h, hrun, hlen, fun k hk => by rw [hpt k hk, card_coveredMask h64]⟩

/-- The inner loop, started at the decoding of v, visits exactly the
decodings of v, v + 1, ..., 2 ^ m - 1 in that order. -/
theorem visitList_spec {elems : List Nat} (hd : elems.Nodup) :
    ∀ (n v fuel : Nat), v + n = 2 ^ elems.length - 1 →
      v < 2 ^ elems.length → n < fuel →
      visitList (seqFrom 0 elems) (maskOf elems) fuel (encode elems v)
        = some ((List.range' v (n + 1)).map (encode elems)) := by
  intro n
  induction n with
  | zero =>
    intro v fuel hvn hv hfuel
    obtain ⟨f, rfl⟩ : ∃ f, fuel = f + 1 := ⟨fuel - 1, by omega⟩
    have hveq : v = 2 ^ elems.length - 1 := by omega
    subst hveq
    rw [encode_full hd]
    simp [visitList, List.range'_succ, encode_full hd]
  | succ n ihn =>
    intro v fuel hvn hv hfuel
    obtain ⟨f, rfl⟩ : ∃ f, fuel = f + 1 := ⟨fuel - 1, by omega⟩
    have hpow : 0 < 2 ^ elems.length := Nat.pos_pow_of_pos _ (by omega)
    have hv1 : v + 1 < 2 ^ elems.length := by omega
    have hne : encode elems v ≠ maskOf elems := by
      intro hcontra
      rw [← encode_full hd] at hcontra
      have := encode_inj hd hv (by omega) hcontra
      omega
    obtain ⟨t, hfind, _, hxor, _⟩ := step_spec elems hd v hv1
    conv_lhs => rw [visitList]
    rw [if_neg hne, hfind]
    show (visitList (seqFrom 0 elems) (maskOf elems) f
        (encode elems v ^^^ (seqFrom 0 elems).getD t 0)).map
          (encode elems v :: ·) = _
    rw [hxor, ihn (v + 1) f (by omega) hv1 (by omega), List.range'_succ]
    rfl

theorem covered_single {l : List Nat} (hnd : l.Nodup)
    (h64 : ∀ x ∈ l, x < 64) (k : Nat) :
    (covered [l] k).card = Nat.choose l.length k := by
  have hT : l.toFinset ⊆ Finset.range 64 := fun x hx =>
    Finset.mem_range.mpr (h64 x (List.mem_toFinset.mp hx))
  have hset : covered [l] k = Finset.powersetCard k l.toFinset := by
    ext X
    rw [covered, Finset.mem_filter, Finset.mem_powerset, Finset.mem_powersetCard]
    constructor
    · rintro ⟨-, hcard, l', hl', hXl⟩
      have : l' = l := by simpa using hl'
      subst this
      exact ⟨hXl, hcard⟩
    · rintro ⟨hXl, hcard⟩
      exact ⟨hXl.trans hT, hcard, l, by simp, hXl⟩
  rw [hset, Finset.card_powersetCard, List.toFinset_card_of_nodup hnd]

theorem covered_nonempty_of_succ {lines : List (List Nat)} {k : Nat}
    (h : (covered lines (k + 1)).Nonempty) : (covered lines k).Nonempty := by
  obtain ⟨X, hX⟩ := h
  rw [covered, Finset.mem_filter, Finset.mem_powerset] at hX
  obtain ⟨hXsub, hcard, l, hl, hXl⟩ := hX
  have hne : X.Nonempty := Finset.card_pos.mp (by omega)
  obtain ⟨x, hx⟩ := hne
  refine ⟨X.erase x, ?_⟩
  rw [covered, Finset.mem_filter, Finset.mem_powerset]
  refine ⟨(Finset.erase_subset x X).trans hXsub, ?_, l, hl,
    (Finset.erase_subset x X).trans hXl⟩
  rw [Finset.card_erase_of_mem hx, hcard]
  omega

theorem takeWhile_getD_of_all {p : Nat → Bool} :
    ∀ (l : List Nat) (k : Nat), (∀ j, j ≤ k → p (l.getD j 0) = true) →
      (l.takeWhile p).getD k 0 = l.getD k 0 := by
  intro l
  induction l with
  | nil => intro k _; rfl
  | cons a l ih =>
    intro k h
    have ha : p a = true := h 0 (by omega)
    rw [List.takeWhile_cons, if_pos ha]
    cases k with
    | zero => rfl
    | succ k =>
      have hsh : (a :: l).getD (k + 1) 0 = l.getD k 0 := by
        rw [List.getD_eq_getElem?_getD, List.getElem?_cons_succ,
          List.getD_eq_getElem?_getD]
      have hsh2 : (a :: l.takeWhile p).getD (k + 1) 0
          = (l.takeWhile p).getD k 0 := by
        rw [List.getD_eq_getElem?_getD, List.getElem?_cons_succ,
          List.getD_eq_getElem?_getD]
      rw [hsh, hsh2]
      exact ih k fun j hj => by
        have := h (j + 1) (by omega)
        rwa [List.getD_eq_getElem?_getD, List.getElem?_cons_succ,
          ← List.getD_eq_getElem?_getD] at this

theorem hist_ext {h1 h2 : List Nat} (hl1 : h1.length = 65)
    (hl2 : h2.length = 65)
    (h : ∀ k, k < 65 → h1.getD k 0 = h2.getD k 0) : h1 = h2 := by
  apply List.ext_getElem (by omega)
  intro i hi1 hi2
  have hi : i < 65 := by omega
  have := h i hi
  rwa [List.getD_eq_getElem?_getD, List.getD_eq_getElem?_getD,
    List.getElem?_eq_getElem hi1, List.getElem?_eq_getElem hi2] at this

theorem covered_perm {lines1 lines2 : List (List Nat)}
    (hp : lines1.Perm lines2) (k : Nat) :
    covered lines1 k = covered lines2 k := by
  apply Finset.filter_congr
  intro X _
  simp [hp.mem_iff]

theorem popcount_maskOf {l : List Nat} (hnd : l.Nodup)
    (h64 : ∀ x ∈ l, x < 64) : popcount (maskOf l) = l.length := by
  rw [popcount_eq_card_toSet (maskOf_lt h64), toSet_maskOf h64,
    List.toFinset_card_of_nodup hnd]

/-! The claims. -/

/-- C1: for every valid input list of at most 1000 nonempty base sets over
0..63, after Compute_numbers runs, numbers_of_subsets[k] is, for every
cell k, the number of distinct k-element subsets X of 0..63 contained in
at least one base set. -/
theorem claim1_histogram_counts_covered_subsets
    (lines : List (List Nat)) (_hcap : lines.length ≤ MAX_NUMBER)
    (_hne : ∀ l ∈ lines, l ≠ [])
    (hnd : ∀ l ∈ lines, l.Nodup) (h64 : ∀ l ∈ lines, ∀ x ∈ l, x < 64) :
    ∃ h, Compute_numbers (Read_input lines).2 = some h ∧ h.length = 65
      ∧ ∀ k, k < 65 → h.getD k 0 = (covered lines k).card :=
  Compute_numbers_covered hnd h64

/-- Witness for C1: the worked example, base sets 1 3 5 6 / 2 4 5 16 20 /
0 2 5, together with its concrete histogram 1, 9, 18, 15, 6, 1 and zeros
thereafter. -/
theorem claim1_witness_scenarioA :
    (∃ h, Compute_numbers
        (Read_input [[1,3,5,6],[2,4,5,16,20],[0,2,5]]).2 = some h
      ∧ h.length = 65
      ∧ ∀ k, k < 65 →
          h.getD k 0 = (covered [[1,3,5,6],[2,4,5,16,20],[0,2,5]] k).card)
    ∧ Compute_numbers (Read_input [[1,3,5,6],[2,4,5,16,20],[0,2,5]]).2
        = some ([1,9,18,15,6,1] ++ List.replicate 59 0) :=
  ⟨claim1_histogram_counts_covered_subsets [[1,3,5,6],[2,4,5,16,20],[0,2,5]]
      (by decide) (by decide) (by decide) (by decide),
    by decide⟩

/-- C2: for each base set, the successor stepping started at the empty
subset visits every subset of the set exactly once, 2 ^ cardinality
subsets in total, with the full set reached last. -/
theorem claim2_enumeration_visits_each_subset_once
    (elems : List Nat) (hnd : elems.Nodup) (h64 : ∀ x ∈ elems, x < 64) :
    ∃ L, visitList (seqFrom 0 elems) (maskOf elems) (2 ^ 64) 0 = some L
      ∧ L.length = 2 ^ popcount (maskOf elems)
      ∧ L.Nodup
      ∧ (∀ S, S ∈ L ↔ S &&& maskOf elems = S)
      ∧ L.getLast? = some (maskOf elems) := by
  have hm64 := length_le_64 hnd h64
  have hpos : 0 < 2 ^ elems.length := Nat.pos_pow_of_pos _ (by omega)
  have hfuel : 2 ^ elems.length - 1 < 2 ^ 64 := by
    have := Nat.pow_le_pow_right (show 1 ≤ 2 by omega) hm64
    omega
  have hrun := visitList_spec hnd (2 ^ elems.length - 1) 0 (2 ^ 64)
    (by omega) hpos hfuel
  rw [encode_zero] at hrun
  have hn1 : 2 ^ elems.length - 1 + 1 = 2 ^ elems.length := by omega
  rw [hn1] at hrun
  refine ⟨_, hrun, ?_, ?_, ?_, ?_⟩
  · rw [List.length_map, List.length_range', popcount_maskOf hnd h64]
  · apply List.Nodup.map_on
    · intro x hx y hy hxy
      obtain ⟨i, hi, rfl⟩ := List.mem_range'.mp hx
      obtain ⟨j, hj, rfl⟩ := List.mem_range'.mp hy
      have hieq := encode_inj hnd (v := 0 + 1 * i) (w := 0 + 1 * j)
        (by omega) (by omega) hxy
      omega
    · exact List.nodup_range' _ _
  · intro S
    constructor
    · intro hS
      obtain ⟨v, _, rfl⟩ := List.mem_map.mp hS
      exact encode_and_maskOf elems v
    · intro hS
      obtain ⟨v, hvlt, rfl⟩ := encode_surj hnd hS
      exact List.mem_map_of_mem _ (List.mem_range'.mpr ⟨v, hvlt, by omega⟩)
  · have hconcat : List.range' 0 (2 ^ elems.length)
        = List.range' 0 (2 ^ elems.length - 1) ++ [0 + 1 * (2 ^ elems.length - 1)] := by
      rw [← List.range'_concat, hn1]
    have harg : 0 + 1 * (2 ^ elems.length - 1) = 2 ^ elems.length - 1 := by omega
    rw [hconcat, List.map_append, List.map_cons, List.map_nil, harg,
      encode_full hnd, List.getLast?_concat]

/-- Witness for C2: the base set with elements 0 and 1; the loop visits
the four subsets 0, 1, 2, 3 in counter order. -/
theorem claim2_witness :
    (∃ L, visitList (seqFrom 0 [0, 1]) (maskOf [0, 1]) (2 ^ 64) 0 = some L
      ∧ L.length = 2 ^ popcount (maskOf [0, 1])
      ∧ L.Nodup
      ∧ (∀ S, S ∈ L ↔ S &&& maskOf [0, 1] = S)
      ∧ L.getLast? = some (maskOf [0, 1]))
    ∧ visitList (seqFrom 0 [0, 1]) (maskOf [0, 1]) (2 ^ 64) 0
        = some [0, 1, 2, 3] :=
  ⟨claim2_enumeration_visits_each_subset_once [0, 1] (by decide) (by decide),
    by decide⟩

/-- C3: whenever the loop is entered with subset a proper subset of the
base set, the successor search terminates at an index strictly below the
number of entries written for that set, which is the set's cardinality,
at most 64: the read of sequences[i][index] stays in bounds. -/
theorem claim3_successor_search_inbounds
    (elems : List Nat) (subset : Nat) (hnd : elems.Nodup)
    (h64 : ∀ x ∈ elems, x < 64)
    (hsub : subset &&& maskOf elems = subset)
    (hne : subset ≠ maskOf elems) :
    ∃ t, ((seqFrom 0 elems).findIdx? fun s => (subset ||| s) != subset) = some t
      ∧ t < (seqFrom 0 elems).length
      ∧ (seqFrom 0 elems).length = popcount (maskOf elems)
      ∧ popcount (maskOf elems) ≤ 64 := by
  have hnee : elems ≠ [] := by
    intro hcontra
    subst hcontra
    apply hne
    have h0 : maskOf ([] : List Nat) = 0 := rfl
    rw [h0] at hsub ⊢
    rw [Nat.and_zero] at hsub
    exact hsub.symm
  have hmem := maskOf_mem_seqFrom hnee
  have hp : ((subset ||| maskOf elems) != subset) = true := by
    apply bne_iff_ne.mpr
    intro hcontra
    apply hne
    have h1 := or_eq_left_iff.mp hcontra
    have h2 := and_eq_left_iff.mp hsub
    apply Nat.eq_of_testBit_eq
    intro i
    rw [Bool.eq_iff_iff]
    exact ⟨fun hb => h2 i hb, fun hb => h1 i hb⟩
  have hsome : (((seqFrom 0 elems).findIdx? fun s =>
      (subset ||| s) != subset)).isSome = true := by
    rw [List.findIdx?_isSome]
    exact List.any_eq_true.mpr ⟨maskOf elems, hmem, hp⟩
  obtain ⟨t, ht⟩ := Option.isSome_iff_exists.mp hsome
  obtain ⟨hlt, -⟩ := List.findIdx?_eq_some_iff_getElem.mp ht
  refine ⟨t, ht, hlt, ?_, ?_⟩
  · rw [seqFrom_length, popcount_maskOf hnd h64]
  · rw [popcount_maskOf hnd h64]
    exact length_le_64 hnd h64

/-- Witness for C3: base set with elements 0 and 1, subset 1 (a proper
subset of the mask 3); the search stops at index 1. -/
theorem claim3_witness :
    (∃ t, ((seqFrom 0 [0, 1]).findIdx? fun s => (1 ||| s) != 1) = some t
      ∧ t < (seqFrom 0 [0, 1]).length
      ∧ (seqFrom 0 [0, 1]).length = popcount (maskOf [0, 1])
      ∧ popcount (maskOf [0, 1]) ≤ 64)
    ∧ ((seqFrom 0 [0, 1]).findIdx? fun s => (1 ||| s) != 1) = some 1 :=
  ⟨claim3_successor_search_inbounds [0, 1] 1 (by decide) (by decide)
      (by decide) (by decide),
    by decide⟩

/-- C4: the successor update preserves size = popcount subset: when the
search stops at index t on the decoding of counter value v, the new size
size - (t - 1) is the popcount of the new subset. -/
theorem claim4_size_tracks_popcount
    (elems : List Nat) (hnd : elems.Nodup) (v t : Nat)
    (hv : v + 1 < 2 ^ elems.length)
    (hfind : ((seqFrom 0 elems).findIdx? fun s =>
        (encode elems v ||| s) != encode elems v) = some t) :
    (popcount (encode elems v) : Int) - ((t : Int) - 1)
      = (popcount (encode elems v ^^^ (seqFrom 0 elems).getD t 0) : Int) := by
  obtain ⟨t', hfind', -, hxor, hsize⟩ := step_spec elems hnd v hv
  rw [hfind] at hfind'
  have hteq : t = t' := Option.some.inj hfind'
  subst hteq
  rw [hxor]
  exact hsize

/-- Witness for C4: base set with elements 0 and 1, at the empty subset
(v = 0) the search stops at t = 0 and the size goes from 0 to 1. -/
theorem claim4_witness :
    (popcount (encode [0, 1] 0) : Int) - ((0 : Int) - 1)
      = (popcount (encode [0, 1] 0 ^^^ (seqFrom 0 [0, 1]).getD 0 0) : Int) :=
  claim4_size_tracks_popcount [0, 1] (by decide) 0 0 (by decide) (by decide)

/-- C5 records a divergence between spec and code: the load phase
performs no capacity or range validation at all.  Read_input reports
success on a line containing the out-of-range element 64 (whose shift is
undefined behaviour in the C source), and on 1001 base sets, and the
computation then proceeds on the invalid data instead of failing with
CapacityExceeded. -/
theorem claim5_load_accepts_invalid_input :
    (Read_input [[64]]).1 = true
      ∧ (Read_input (List.replicate (MAX_NUMBER + 1) [0])).1 = true
      ∧ Compute_numbers (Read_input [[64]]).2
          = some ([1, 1] ++ List.replicate 63 0) :=
  ⟨rfl, rfl, by decide⟩

/-- C6: a base set equal to, or a subset of, an earlier base set
contributes zero new counts: processing it leaves the histogram
unchanged. -/
theorem claim6_redundant_base_set_adds_nothing
    (prev : List Nat) (elems : List Nat) (hist : List Nat)
    (hnd : elems.Nodup) (h64 : ∀ x ∈ elems, x < 64)
    (hlen : hist.length = 65)
    (hcov : ∃ B ∈ prev, maskOf elems &&& B = maskOf elems) :
    processSet prev (maskOf elems) (seqFrom 0 elems) hist = some hist := by
  obtain ⟨h, hrun, hlenh, hpt⟩ := processSet_spec prev hnd h64 hist hlen
  have hempty : ∀ k, newOfSize prev (maskOf elems) k = ∅ := by
    intro k
    apply Finset.eq_empty_of_forall_not_mem
    intro S hS
    rw [newOfSize, Finset.mem_filter] at hS
    obtain ⟨-, hSA, hcont, -⟩ := hS
    obtain ⟨B, hB, hAB⟩ := hcov
    have hSB : S &&& B = S := by
      apply and_eq_left_iff.mpr
      intro i hi
      exact and_eq_left_iff.mp hAB i (and_eq_left_iff.mp hSA i hi)
    have hc : contained prev S = true := contained_iff.mpr ⟨B, hB, hSB⟩
    rw [hc] at hcont
    cases hcont
  have heq : h = hist := hist_ext hlenh hlen fun k hk => by
    rw [hpt k hk, hempty k]
    simp
  rw [hrun, heq]

/-- Witness for C6: scenario C, the base set with elements 0 and 1 loaded
twice: the second pass leaves the histogram unchanged and the full run
yields 1, 2, 1 and zeros thereafter, as for a single copy. -/
theorem claim6_witness_scenarioC :
    processSet [maskOf [0, 1]] (maskOf [0, 1]) (seqFrom 0 [0, 1])
        ([1, 2, 1] ++ List.replicate 62 0)
      = some ([1, 2, 1] ++ List.replicate 62 0)
    ∧ Compute_numbers (Read_input [[0, 1], [0, 1]]).2
        = some ([1, 2, 1] ++ List.replicate 62 0)
    ∧ Compute_numbers (Read_input [[0, 1]]).2
        = some ([1, 2, 1] ++ List.replicate 62 0) :=
  ⟨claim6_redundant_base_set_adds_nothing [maskOf [0, 1]] [0, 1]
      ([1, 2, 1] ++ List.replicate 62 0) (by decide) (by decide)
      (by decide) (by decide),
    by decide, by decide⟩

/-- C7: a single base set of cardinality m yields the binomial histogram:
cell k holds the binomial coefficient choose m k, which is zero for every
k above m. -/
theorem claim7_single_set_binomial
    (l : List Nat) (hnd : l.Nodup) (h64 : ∀ x ∈ l, x < 64) :
    ∃ h, Compute_numbers (Read_input [l]).2 = some h ∧ h.length = 65
      ∧ ∀ k, k < 65 →
          h.getD k 0 = Nat.choose (popcount (maskOf l)) k := by
  have hnd' : ∀ l' ∈ [l], l'.Nodup := by
    intro l' hl'
    rw [List.mem_singleton] at hl'
    subst hl'
    exact hnd
  have h64' : ∀ l' ∈ [l], ∀ x ∈ l', x < 64 := by
    intro l' hl'
    rw [List.mem_singleton] at hl'
    subst hl'
    exact h64
  obtain ⟨h, hrun, hlen, hpt⟩ := Compute_numbers_covered hnd' h64'
  refine ⟨h, hrun, hlen, fun k hk => ?_⟩
  rw [hpt k hk, covered_single hnd h64, popcount_maskOf hnd h64]

/-- Witness for C7: scenario B, the single base set with elements 0 1 2,
whose histogram is 1, 3, 3, 1 and zeros thereafter. -/
theorem claim7_witness_scenarioB :
    (∃ h, Compute_numbers (Read_input [[0, 1, 2]]).2 = some h
      ∧ h.length = 65
      ∧ ∀ k, k < 65 →
          h.getD k 0 = Nat.choose (popcount (maskOf [0, 1, 2])) k)
    ∧ Compute_numbers (Read_input [[0, 1, 2]]).2
        = some ([1, 3, 3, 1] ++ List.replicate 61 0) :=
  ⟨claim7_single_set_binomial [0, 1, 2] (by decide) (by decide), by decide⟩

/-- C8: the final histogram is invariant under permuting the input base
sets, although the dedup bookkeeping is order dependent. -/
theorem claim8_histogram_permutation_invariant
    (lines1 lines2 : List (List Nat))
    (hnd1 : ∀ l ∈ lines1, l.Nodup)
    (h641 : ∀ l ∈ lines1, ∀ x ∈ l, x < 64)
    (hp : lines1.Perm lines2) :
    Compute_numbers (Read_input lines1).2
      = Compute_numbers (Read_input lines2).2 := by
  have hnd2 : ∀ l ∈ lines2, l.Nodup := fun l hl => hnd1 l (hp.mem_iff.mpr hl)
  have h642 : ∀ l ∈ lines2, ∀ x ∈ l, x < 64 :=
    fun l hl => h641 l (hp.mem_iff.mpr hl)
  obtain ⟨h1, hrun1, hlen1, hpt1⟩ := Compute_numbers_covered hnd1 h641
  obtain ⟨h2, hrun2, hlen2, hpt2⟩ := Compute_numbers_covered hnd2 h642
  have heq : h1 = h2 := hist_ext hlen1 hlen2 fun k hk => by
    rw [hpt1 k hk, hpt2 k hk, covered_perm hp k]
  rw [hrun1, hrun2, heq]

/-- Witness for C8: the two-set lists 0 / 1 and 1 / 0. -/
theorem claim8_witness :
    Compute_numbers (Read_input [[0], [1]]).2
      = Compute_numbers (Read_input [[1], [0]]).2 :=
  claim8_histogram_permutation_invariant [[0], [1]] [[1], [0]]
    (by decide) (by decide) (by decide)

/-- C9: the histogram's support is a contiguous prefix — a zero cell is
never followed by a nonzero cell — so the stop-at-first-zero policy of
Write_output drops no nonzero count. -/
theorem claim9_support_contiguous
    (lines : List (List Nat)) (h : List Nat)
    (hnd : ∀ l ∈ lines, l.Nodup) (h64 : ∀ l ∈ lines, ∀ x ∈ l, x < 64)
    (hrun : Compute_numbers (Read_input lines).2 = some h) :
    (∀ k, k < 64 → h.getD k 0 = 0 → h.getD (k + 1) 0 = 0)
      ∧ ∀ k, k < 65 → h.getD k 0 ≠ 0 →
          (Write_output h).getD k 0 = h.getD k 0 := by
  obtain ⟨h', hrun', hlen', hpt⟩ := Compute_numbers_covered hnd h64
  rw [hrun] at hrun'
  have hh : h = h' := Option.some.inj hrun'
  subst hh
  have hstep : ∀ k, k < 64 → h.getD k 0 = 0 → h.getD (k + 1) 0 = 0 := by
    intro k hk h0
    rw [hpt k (by omega)] at h0
    rw [hpt (k + 1) (by omega)]
    by_contra hne2
    have hpos : (covered lines (k + 1)).Nonempty :=
      Finset.card_pos.mp (by omega)
    have hne3 := Finset.card_pos.mpr (covered_nonempty_of_succ hpos)
    omega
  refine ⟨hstep, ?_⟩
  intro k hk hne2
  have hup : ∀ m, m < 65 → ∀ j, j ≤ m → h.getD j 0 = 0 → h.getD m 0 = 0 := by
    intro m
    induction m with
    | zero =>
      intro _ j hj h0
      have hj0 : j = 0 := by omega
      subst hj0
      exact h0
    | succ m ihm =>
      intro hm j hj h0
      rcases Nat.lt_or_ge j (m + 1) with hlt | hge
      · exact hstep m (by omega) (ihm (by omega) j (by omega) h0)
      · have hjm : j = m + 1 := by omega
        subst hjm
        exact h0
  have hall : ∀ j, j ≤ k → ((h.getD j 0 != 0) = true) := by
    intro j hj
    apply bne_iff_ne.mpr
    intro h0
    exact hne2 (hup k hk j hj h0)
  exact takeWhile_getD_of_all h k hall

/-- Witness for C9: the run on the single base set with elements 0 and 1,
whose histogram is 1, 2, 1 and zeros thereafter. -/
theorem claim9_witness :
    (∀ k, k < 64 →
        (([1, 2, 1] ++ List.replicate 62 0) : List Nat).getD k 0 = 0 →
        (([1, 2, 1] ++ List.replicate 62 0) : List Nat).getD (k + 1) 0 = 0)
      ∧ ∀ k, k < 65 →
          (([1, 2, 1] ++ List.replicate 62 0) : List Nat).getD k 0 ≠ 0 →
          (Write_output ([1, 2, 1] ++ List.replicate 62 0)).getD k 0
            = (([1, 2, 1] ++ List.replicate 62 0) : List Nat).getD k 0 :=
  claim9_support_contiguous [[0, 1]] ([1, 2, 1] ++ List.replicate 62 0)
    (by decide) (by decide) (by decide)

/-- C10: a base set with bitmask 0 (from an empty line) is harmless: the
enumeration loop is never entered, the set contributes exactly one
increment to cell 0 when it is the first set and none otherwise, and the
computation still terminates on any valid line list. -/
theorem claim10_zero_mask_set (prev seq hist : List Nat) :
    (processSet prev 0 seq hist
        = some (if prev.isEmpty then hist.set 0 (hist.getD 0 0 + 1) else hist))
      ∧ ∀ lines : List (List Nat),
          (∀ l ∈ lines, l.Nodup ∧ ∀ x ∈ l, x < 64) →
          ∃ h, Compute_numbers (Read_input lines).2 = some h := by
  constructor
  · have hIL : innerLoop prev 0 seq (2 ^ 64) 0 0 hist = some (0, hist) := by
      have hsplit : (2 : Nat) ^ 64 = (2 ^ 64 - 1) + 1 := by
        have : 0 < (2 : Nat) ^ 64 := Nat.pos_pow_of_pos _ (by omega)
        omega
      rw [hsplit]
      exact innerLoop_exit prev 0 seq _ 0 hist
    rw [processSet, hIL]
    cases prev with
    | nil =>
      show bump hist 0 = some (hist.set 0 (hist.getD 0 0 + 1))
      have hb := @bump_some hist 0 (by omega)
      rwa [Nat.cast_zero] at hb
    | cons B prev' =>
      have hc : contained (B :: prev') 0 = true :=
        contained_iff.mpr ⟨B, List.mem_cons_self _ _, Nat.zero_and B⟩
      show (if contained (B :: prev') 0 = true then some hist else bump hist 0)
          = some (if (B :: prev').isEmpty = true
              then hist.set 0 (hist.getD 0 0 + 1) else hist)
      rw [hc]
      rfl
  · intro lines hval
    obtain ⟨h, hrun, -, -⟩ := Compute_numbers_spec hval
    exact ⟨h, hrun⟩

/-- Witness for C10: an empty first line followed by the base set with
element 0; the run succeeds with histogram 1, 1 and zeros thereafter. -/
theorem claim10_witness :
    (processSet [] 0 [] (List.replicate 65 0)
        = some (if ([] : List Nat).isEmpty
            then (List.replicate 65 0).set 0
              ((List.replicate 65 0).getD 0 0 + 1)
            else List.replicate 65 0)
      ∧ ∀ lines : List (List Nat),
          (∀ l ∈ lines, l.Nodup ∧ ∀ x ∈ l, x < 64) →
          ∃ h, Compute_numbers (Read_input lines).2 = some h)
    ∧ Compute_numbers (Read_input [[], [0]]).2
        = some ([1, 1] ++ List.replicate 63 0) :=
  ⟨claim10_zero_mask_set [] [] (List.replicate 65 0), by decide⟩

end Facets
